import Mathlib

/-!
Verification of the singly linked list container in `src/LinkedList.py`.

The Python heap is modelled as an arena: a `List` of `Node`s, where a node
address is its index in the arena.  Allocating a node appends it at the end
(fresh address = current arena length); mutating a node's `next` link is
`List.set`.  A `LinkedList` object holds an optional head address `first`
and the cached `length` counter (an `Int`, as Python integers are
unbounded and the code decrements the counter without a floor).

Traversals in the source are `while` loops over the node chain; they are
embedded as fuel-indexed recursive functions returning `none` when the
fuel runs out (which never happens on a well-formed chain given enough
fuel), so that non-termination of a loop is expressible as: the function
returns `none` for every fuel.

`chainB h c ps` states that walking the chain starting at cursor `c` in
heap `h` visits exactly the (address, item) pairs `ps` in order and ends
at the terminal marker.
-/

structure Node (α : Type) where
  item : α
  next : Option Nat
  deriving DecidableEq, Repr

abbrev Heap (α : Type) := List (Node α)

structure LinkedList where
  first : Option Nat
  length : Int
  deriving DecidableEq, Repr

/-- `chainB h c ps = true` iff the node chain starting at `c` visits exactly
the (address, item) pairs `ps`, in order, and reaches the terminal marker. -/
def chainB {α : Type} [DecidableEq α] (h : Heap α) : Option Nat → List (Nat × α) → Bool
  | none, [] => true
  | none, _ :: _ => false
  | some _, [] => false
  | some a, (b, x) :: rest =>
    match h.get? a with
    | none => false
    | some nd => decide (a = b) && decide (nd.item = x) && chainB h nd.next rest

theorem get?_some_lt {α : Type} {h : Heap α} {a : Nat} {nd : Node α}
    (hg : h.get? a = some nd) : a < h.length := by
  by_contra hlt
  rw [List.get?_eq_none.2 (by omega)] at hg
  cases hg

section ChainLemmas

variable {α : Type} [DecidableEq α]

theorem chainB_none_iff (h : Heap α) (ps : List (Nat × α)) :
    chainB h none ps = true ↔ ps = [] := by
  cases ps <;> simp [chainB]

theorem chainB_nil_iff (h : Heap α) (c : Option Nat) :
    chainB h c [] = true ↔ c = none := by
  cases c <;> simp [chainB]

theorem chainB_cons_iff (h : Heap α) (c : Option Nat) (b : Nat) (x : α)
    (rest : List (Nat × α)) :
    chainB h c ((b, x) :: rest) = true ↔
      c = some b ∧ ∃ nd, h.get? b = some nd ∧ nd.item = x ∧ chainB h nd.next rest = true := by
  cases c with
  | none => simp [chainB]
  | some a =>
    simp only [chainB]
    cases hga : h.get? a with
    | none =>
      simp only [Bool.false_eq_true, false_iff]
      rintro ⟨hab, nd, hnd, _⟩
      injection hab with hab
      subst hab
      rw [hga] at hnd
      cases hnd
    | some nd =>
      simp only [Bool.and_eq_true, decide_eq_true_eq]
      constructor
      · rintro ⟨⟨hab, hit⟩, hch⟩
        subst hab
        exact ⟨rfl, nd, hga, hit, hch⟩
      · rintro ⟨hab, nd', hnd', hit, hch⟩
        cases hab
        rw [hga] at hnd'
        cases hnd'
        exact ⟨⟨rfl, hit⟩, hch⟩

theorem chainB_valid {h : Heap α} :
    ∀ {ps : List (Nat × α)} {c : Option Nat}, chainB h c ps = true →
      ∀ p ∈ ps, p.1 < h.length := by
  intro ps
  induction ps with
  | nil => intro c _ p hp; cases hp
  | cons q rest ih =>
    intro c hch p hp
    obtain ⟨b, x⟩ := q
    rw [chainB_cons_iff] at hch
    obtain ⟨hc, nd, hnd, _, hrest⟩ := hch
    rcases List.mem_cons.1 hp with rfl | hp
    · exact get?_some_lt hnd
    · exact ih hrest p hp

theorem chainB_suffix {h : Heap α} :
    ∀ {pre : List (Nat × α)} {c : Option Nat} {a : Nat} {x : α} {suf : List (Nat × α)},
      chainB h c (pre ++ (a, x) :: suf) = true →
      chainB h (some a) ((a, x) :: suf) = true := by
  intro pre
  induction pre with
  | nil =>
    intro c a x suf hch
    rw [List.nil_append] at hch
    rw [chainB_cons_iff] at hch ⊢
    obtain ⟨hc, rest⟩ := hch
    exact ⟨rfl, rest⟩
  | cons q pre' ih =>
    intro c a x suf hch
    obtain ⟨b, y⟩ := q
    rw [List.cons_append, chainB_cons_iff] at hch
    obtain ⟨-, nd, -, -, hrest⟩ := hch
    exact ih hrest

theorem chainB_unique {h : Heap α} :
    ∀ {ps qs : List (Nat × α)} {c : Option Nat},
      chainB h c ps = true → chainB h c qs = true → ps = qs := by
  intro ps
  induction ps with
  | nil =>
    intro qs c hp hq
    rw [chainB_nil_iff] at hp
    subst hp
    rw [chainB_none_iff] at hq
    exact hq.symm
  | cons p rest ih =>
    intro qs c hp hq
    obtain ⟨a, x⟩ := p
    rw [chainB_cons_iff] at hp
    obtain ⟨hc, nd, hnd, hit, hrest⟩ := hp
    subst hc
    cases qs with
    | nil => rw [chainB_nil_iff] at hq; cases hq
    | cons q qrest =>
      obtain ⟨b, y⟩ := q
      rw [chainB_cons_iff] at hq
      obtain ⟨hb, nd', hnd', hit', hqrest⟩ := hq
      cases hb
      rw [hnd] at hnd'
      cases hnd'
      have : rest = qrest := ih hrest hqrest
      rw [this, ← hit, hit']

theorem chainB_nodup {h : Heap α} :
    ∀ {ps : List (Nat × α)} {c : Option Nat}, chainB h c ps = true →
      (ps.map Prod.fst).Nodup := by
  intro ps
  induction ps with
  | nil => intro c _; simp
  | cons p rest ih =>
    intro c hch
    obtain ⟨a, x⟩ := p
    rw [chainB_cons_iff] at hch
    obtain ⟨hc, nd, hnd, hit, hrest⟩ := hch
    simp only [List.map_cons, List.nodup_cons]
    refine ⟨?_, ih hrest⟩
    intro hmem
    obtain ⟨⟨a', y⟩, hmem', heq⟩ := List.mem_map.1 hmem
    simp only at heq
    rw [heq] at hmem'
    obtain ⟨l1, l2, hsplit⟩ := List.append_of_mem hmem'
    rw [hsplit] at hrest
    have h1 : chainB h (some a) ((a, y) :: l2) = true := chainB_suffix hrest
    have h2 : chainB h (some a) ((a, x) :: (l1 ++ (a, y) :: l2)) = true := by
      rw [chainB_cons_iff]
      exact ⟨rfl, nd, hnd, hit, hrest⟩
    have := chainB_unique h2 h1
    have hlen := congrArg List.length this
    simp at hlen
    omega

theorem chainB_length_le {h : Heap α} {ps : List (Nat × α)} {c : Option Nat}
    (hch : chainB h c ps = true) : ps.length ≤ h.length := by
  have hnd : (ps.map Prod.fst).Nodup := chainB_nodup hch
  have hsub : (ps.map Prod.fst).toFinset ⊆ Finset.range h.length := by
    intro a ha
    rw [List.mem_toFinset] at ha
    obtain ⟨p, hp, hpa⟩ := List.mem_map.1 ha
    rw [Finset.mem_range]
    subst hpa
    exact chainB_valid hch p hp
  have hcard := Finset.card_le_card hsub
  rw [List.toFinset_card_of_nodup hnd, Finset.card_range, List.length_map] at hcard
  exact hcard

theorem chainB_heap_append {h : Heap α} {l : Heap α} :
    ∀ {ps : List (Nat × α)} {c : Option Nat},
      chainB h c ps = true → chainB (h ++ l) c ps = true := by
  intro ps
  induction ps with
  | nil => intro c hch; rw [chainB_nil_iff] at hch ⊢; exact hch
  | cons p rest ih =>
    intro c hch
    obtain ⟨a, x⟩ := p
    rw [chainB_cons_iff] at hch ⊢
    obtain ⟨hc, nd, hnd, hit, hrest⟩ := hch
    exact ⟨hc, nd, by rw [List.get?_append (get?_some_lt hnd)]; exact hnd, hit, ih hrest⟩

theorem chainB_heap_set {h : Heap α} {t : Nat} {nd0 : Node α} :
    ∀ {ps : List (Nat × α)} {c : Option Nat},
      chainB h c ps = true → (∀ p ∈ ps, p.1 ≠ t) → chainB (h.set t nd0) c ps = true := by
  intro ps
  induction ps with
  | nil => intro c hch _; rw [chainB_nil_iff] at hch ⊢; exact hch
  | cons p rest ih =>
    intro c hch hdis
    obtain ⟨a, x⟩ := p
    rw [chainB_cons_iff] at hch ⊢
    obtain ⟨hc, nd, hnd, hit, hrest⟩ := hch
    refine ⟨hc, nd, ?_, hit, ih hrest ?_⟩
    · rw [List.get?_set_ne _ _ (fun hh => (hdis (a, x) (by simp) hh.symm))]
      exact hnd
    · intro p hp
      exact hdis p (List.mem_cons_of_mem _ hp)

end ChainLemmas

/-- The `while curr.next is not None` loop of `LinkedList.append`: walk from
address `a` to the address of the last node of the chain. -/
def findTail {α : Type} (h : Heap α) : Nat → Nat → Option Nat
  | 0, _ => none
  | fuel + 1, a =>
    match h.get? a with
    | none => none
    | some nd =>
      match nd.next with
      | none => some a
      | some b => findTail h fuel b

/-- `LinkedList.append` at the node-chain level: allocate a node holding `x`
(at the fresh address `h.length`) and link it as the new terminal node;
returns the new heap and the head address of the resulting chain.  The
tail traversal gets fuel `h.length`, which suffices for any well-formed
chain. -/
def appendH {α : Type} (h : Heap α) (f : Option Nat) (x : α) : Option (Heap α × Nat) :=
  match f with
  | none => some (h ++ [⟨x, none⟩], h.length)
  | some a =>
    match findTail h h.length a with
    | none => none
    | some t =>
      match h.get? t with
      | none => none
      | some nd => some ((h.set t ⟨nd.item, some h.length⟩) ++ [⟨x, none⟩], a)

/-- `LinkedList.to_list`: walk the chain from cursor `c` collecting items. -/
def toListFuel {α : Type} (h : Heap α) : Option Nat → Nat → Option (List α)
  | none, _ => some []
  | some _, 0 => none
  | some a, fuel + 1 =>
    match h.get? a with
    | none => none
    | some nd => (toListFuel h nd.next fuel).map (fun l => nd.item :: l)

section OpLemmas

variable {α : Type} [DecidableEq α]

theorem findTail_spec {h : Heap α} :
    ∀ {ps : List (Nat × α)} {a : Nat} {n : Nat},
      chainB h (some a) ps = true → ps.length ≤ n →
      ∃ t w, ps.getLast? = some (t, w) ∧ h.get? t = some ⟨w, none⟩ ∧
        findTail h n a = some t := by
  intro ps
  induction ps with
  | nil => intro a fuel hch _; rw [chainB_nil_iff] at hch; cases hch
  | cons p rest ih =>
    intro a fuel hch hfuel
    obtain ⟨b, x⟩ := p
    rw [chainB_cons_iff] at hch
    obtain ⟨hab, nd, hnd, hit, hrest⟩ := hch
    injection hab with hab
    subst hab
    obtain ⟨fuel, rfl⟩ : ∃ k, fuel = k + 1 := by
      cases fuel
      · simp at hfuel
      · exact ⟨_, rfl⟩
    cases rest with
    | nil =>
      rw [chainB_nil_iff] at hrest
      refine ⟨a, x, rfl, ?_, ?_⟩
      · rw [← hit, ← hrest]
        exact hnd
      · simp only [findTail, hnd, hrest]
    | cons q rest2 =>
      obtain ⟨c, y⟩ := q
      have hnext : nd.next = some c := by
        rw [chainB_cons_iff] at hrest
        exact hrest.1
      obtain ⟨t, w, hlast, hget, htail⟩ :=
        ih (a := c) (n := fuel) (by rw [← hnext]; exact hrest) (by simp at hfuel ⊢; omega)
      refine ⟨t, w, ?_, hget, ?_⟩
      · rw [List.getLast?_cons_cons]
        exact hlast
      · simp only [findTail, hnd, hnext]
        exact htail

theorem chainB_snoc {h : Heap α} {t : Nat} {w x : α} :
    ∀ {ps : List (Nat × α)} {c : Option Nat},
      chainB h c ps = true → ps.getLast? = some (t, w) →
      chainB ((h.set t ⟨w, some h.length⟩) ++ [⟨x, none⟩]) c (ps ++ [(h.length, x)]) = true := by
  intro ps
  induction ps with
  | nil => intro c _ hlast; cases hlast
  | cons p rest ih =>
    intro c hch hlast
    obtain ⟨a, z⟩ := p
    rw [chainB_cons_iff] at hch
    obtain ⟨hc, nd, hnd, hit, hrest⟩ := hch
    have hlen : ((h.set t ⟨w, some h.length⟩) ++ [(⟨x, none⟩ : Node α)]).length
        = h.length + 1 := by simp
    have havalid : a < h.length := get?_some_lt hnd
    cases rest with
    | nil =>
      rw [chainB_nil_iff] at hrest
      have hta : t = a ∧ w = z := by
        simp only [List.getLast?_singleton] at hlast
        injection hlast with hlast
        exact ⟨congrArg Prod.fst hlast.symm, congrArg Prod.snd hlast.symm⟩
      obtain ⟨rfl, rfl⟩ := hta
      rw [List.singleton_append, chainB_cons_iff]
      refine ⟨hc, ⟨w, some h.length⟩, ?_, rfl, ?_⟩
      · rw [List.get?_append (by simp; omega)]
        rw [List.get?_set_eq_of_lt _ havalid]
      · rw [chainB_cons_iff]
        refine ⟨rfl, ⟨x, none⟩, ?_, rfl, by rw [chainB_nil_iff]⟩
        have := List.get?_concat_length (h.set t ⟨w, some h.length⟩) (⟨x, none⟩ : Node α)
        rw [List.length_set] at this
        exact this
    | cons q rest2 =>
      have hlast' : (q :: rest2).getLast? = some (t, w) := by
        rw [List.getLast?_cons_cons] at hlast
        exact hlast
      have htmem : t ∈ ((q :: rest2).map Prod.fst) := by
        have := List.mem_of_getLast?_eq_some hlast'
        exact List.mem_map.2 ⟨(t, w), this, rfl⟩
      have hfull : chainB h c ((a, z) :: q :: rest2) = true := by
        rw [chainB_cons_iff]; exact ⟨hc, nd, hnd, hit, hrest⟩
      have hnodup := chainB_nodup hfull
      have hat : a ≠ t := by
        simp only [List.map_cons, List.nodup_cons] at hnodup
        intro heq
        exact hnodup.1 (heq ▸ htmem)
      rw [List.cons_append, chainB_cons_iff]
      refine ⟨hc, nd, ?_, hit, ih hrest hlast'⟩
      rw [List.get?_append (by rw [List.length_set]; exact havalid)]
      rw [List.get?_set_ne _ _ (fun heq => hat heq.symm)]
      exact hnd

theorem appendH_spec {h : Heap α} {f : Option Nat} {ps : List (Nat × α)} (x : α)
    (hch : chainB h f ps = true) :
    ∃ h2 f2, appendH h f x = some (h2, f2) ∧
      chainB h2 (some f2) (ps ++ [(h.length, x)]) = true ∧
      h2.length = h.length + 1 ∧
      (∀ c zs, chainB h c zs = true → (∀ p ∈ zs, p.1 ∉ ps.map Prod.fst) →
        chainB h2 c zs = true) := by
  cases f with
  | none =>
    rw [chainB_none_iff] at hch
    subst hch
    refine ⟨h ++ [(⟨x, none⟩ : Node α)], h.length, rfl, ?_, by simp, ?_⟩
    · rw [List.nil_append, chainB_cons_iff]
      exact ⟨rfl, ⟨x, none⟩, List.get?_concat_length h _, rfl, by rw [chainB_nil_iff]⟩
    · intro c zs hzs _
      exact chainB_heap_append hzs
  | some a =>
    obtain ⟨t, w, hlast, hget, htail⟩ :=
      findTail_spec (n := h.length) hch (chainB_length_le hch)
    refine ⟨(h.set t ⟨w, some h.length⟩) ++ [⟨x, none⟩], a, ?_, ?_, by simp, ?_⟩
    · simp only [appendH, htail, hget]
    · exact chainB_snoc hch hlast
    · intro c zs hzs hdis
      have htmem : t ∈ ps.map Prod.fst :=
        List.mem_map.2 ⟨(t, w), List.mem_of_getLast?_eq_some hlast, rfl⟩
      refine chainB_heap_append (chainB_heap_set hzs ?_)
      intro p hp heq
      exact hdis p hp (heq ▸ htmem)

theorem toListFuel_spec {h : Heap α} :
    ∀ {ps : List (Nat × α)} {c : Option Nat} {n : Nat},
      chainB h c ps = true → ps.length ≤ n →
      toListFuel h c n = some (ps.map Prod.snd) := by
  intro ps
  induction ps with
  | nil =>
    intro c fuel hch _
    rw [chainB_nil_iff] at hch
    subst hch
    cases fuel <;> rfl
  | cons p rest ih =>
    intro c fuel hch hfuel
    obtain ⟨a, z⟩ := p
    rw [chainB_cons_iff] at hch
    obtain ⟨hc, nd, hnd, hit, hrest⟩ := hch
    subst hc
    obtain ⟨fuel, rfl⟩ : ∃ k, fuel = k + 1 := by
      cases fuel
      · simp at hfuel
      · exact ⟨_, rfl⟩
    simp only [toListFuel, hnd]
    rw [ih hrest (by simp at hfuel ⊢; omega)]
    simp [hit]

end OpLemmas

/-- `LinkedList.copy`: `LinkedList(first=self._first)` shares the head node
and leaves the freshly constructed list's cached `_length` at `0`. -/
def LinkedList.copy (L : LinkedList) : LinkedList := ⟨L.first, 0⟩

/-- The `for item in other: copy.append(item)` loop shared by
`LinkedList.extend` and `LinkedList.__add__`.  `f` is the evolving head of
the copy, `cursor` the iterator's position in `other`'s chain.  Faithful to
`LinkedListIterator.__next__`, the cursor advances to `nd.next` as read
BEFORE the append mutates the heap.  Returns the final heap, the copy's
head, and the number of appends performed (= the copy's `_length`). -/
def extendLoop {α : Type} : Heap α → Option Nat → Option Nat → Nat →
    Option (Heap α × Option Nat × Nat)
  | h, f, none, _ => some (h, f, 0)
  | _, _, some _, 0 => none
  | h, f, some a, fuel + 1 =>
    match h.get? a with
    | none => none
    | some nd =>
      match appendH h f nd.item with
      | none => none
      | some (h2, f2) =>
        (extendLoop h2 (some f2) nd.next fuel).map
          (fun r => (r.1, r.2.1, r.2.2 + 1))

/-- `LinkedList.extend`: run the append loop starting from a copy sharing
self's head, then set `self._first` to the copy's head.  `self._length` is
not updated by the source code. -/
def LinkedList.extend {α : Type} (h : Heap α) (L M : LinkedList) (fuel : Nat) :
    Option (Heap α × LinkedList) :=
  (extendLoop h L.first M.first fuel).map (fun r => (r.1, ⟨r.2.1, L.length⟩))

/-- `LinkedList.__add__`: same loop as `extend`, but the copy itself is
returned; its cached length is the number of appends performed. -/
def LinkedList.add {α : Type} (h : Heap α) (L M : LinkedList) (fuel : Nat) :
    Option (Heap α × LinkedList) :=
  (extendLoop h L.first M.first fuel).map (fun r => (r.1, ⟨r.2.1, (r.2.2 : Int)⟩))

section ExtendLemmas

variable {α : Type} [DecidableEq α]

theorem extendLoop_spec :
    ∀ {qs : List (Nat × α)} {n : Nat} {h : Heap α} {f c : Option Nat}
      {ps : List (Nat × α)},
      chainB h f ps = true → chainB h c qs = true →
      (∀ p ∈ qs, p.1 ∉ ps.map Prod.fst) → qs.length ≤ n →
      ∃ h2 f2 rs, extendLoop h f c n = some (h2, f2, qs.length) ∧
        chainB h2 f2 (ps ++ rs) = true ∧
        rs.map Prod.snd = qs.map Prod.snd ∧
        (∀ c2 zs, chainB h c2 zs = true → (∀ p ∈ zs, p.1 ∉ ps.map Prod.fst) →
          chainB h2 c2 zs = true) := by
  intro qs
  induction qs with
  | nil =>
    intro fuel h f c ps hf hq _ _
    rw [chainB_nil_iff] at hq
    subst hq
    refine ⟨h, f, [], ?_, by rw [List.append_nil]; exact hf, rfl, fun c2 zs hzs _ => hzs⟩
    cases fuel <;> rfl
  | cons q qs2 ih =>
    intro fuel h f c ps hf hq hdis hfuel
    obtain ⟨a, y⟩ := q
    rw [chainB_cons_iff] at hq
    obtain ⟨hc, nd, hnd, hit, hq2⟩ := hq
    subst hc
    obtain ⟨fuel, rfl⟩ : ∃ k, fuel = k + 1 := by
      cases fuel
      · simp at hfuel
      · exact ⟨_, rfl⟩
    obtain ⟨h1, f1, happ, hch1, hlen1, hframe1⟩ := appendH_spec nd.item hf
    have hps1 : chainB h1 (some f1) (ps ++ [(h.length, nd.item)]) = true := hch1
    have hq2' : chainB h1 nd.next qs2 = true := by
      refine hframe1 _ _ hq2 ?_
      intro p hp2
      exact hdis p (List.mem_cons_of_mem _ hp2)
    have hdis1 : ∀ p ∈ qs2, p.1 ∉ (ps ++ [(h.length, nd.item)]).map Prod.fst := by
      intro p hp2
      rw [List.map_append, List.mem_append]
      rintro (hmem | hmem)
      · exact hdis p (List.mem_cons_of_mem _ hp2) hmem
      · simp only [List.map_cons, List.map_nil, List.mem_singleton] at hmem
        have := chainB_valid hq2 p hp2
        omega
    obtain ⟨h2, f2, rs2, hrec, hch2, hitems2, hframe2⟩ :=
      ih (n := fuel) hps1 hq2' hdis1 (by simp at hfuel ⊢; omega)
    refine ⟨h2, f2, (h.length, nd.item) :: rs2, ?_, ?_, ?_, ?_⟩
    · simp only [extendLoop, hnd, happ, hrec, List.length_cons]
      rfl
    · rw [List.append_cons]
      exact hch2
    · simp only [List.map_cons, hitems2, hit]
    · intro c2 zs hzs hdzs
      refine hframe2 _ _ (hframe1 _ _ hzs hdzs) ?_
      intro p hpz
      rw [List.map_append, List.mem_append]
      rintro (hmem | hmem)
      · exact hdzs p hpz hmem
      · simp only [List.map_cons, List.map_nil, List.mem_singleton] at hmem
        have := chainB_valid hzs p hpz
        omega

theorem extendLoop_diverges :
    ∀ {n : Nat} {h : Heap α} {f c : Option Nat} {l u v : List (Nat × α)}
      {a : Nat} {x : α},
      chainB h f l = true → l = u ++ (a, x) :: v → v ≠ [] → c = some a →
      extendLoop h f c n = none := by
  intro fuel
  induction fuel with
  | zero =>
    intro h f c ps pre suf a x _ _ _ hc
    subst hc
    rfl
  | succ fuel ih =>
    intro h f c ps pre suf a x hf hsplit hsuf hc
    subst hc
    cases suf with
    | nil => exact absurd rfl hsuf
    | cons q suf2 =>
      obtain ⟨b, y⟩ := q
      subst hsplit
      have hmid : chainB h (some a) ((a, x) :: (b, y) :: suf2) = true :=
        chainB_suffix hf
      rw [chainB_cons_iff] at hmid
      obtain ⟨-, nd, hnd, hit, hrest⟩ := hmid
      have hnext : nd.next = some b := by
        rw [chainB_cons_iff] at hrest
        exact hrest.1
      obtain ⟨h1, f1, happ, hch1, hlen1, hframe1⟩ := appendH_spec nd.item hf
      have hrec : extendLoop h1 (some f1) nd.next fuel = none := by
        refine ih (l := (pre ++ (a, x) :: (b, y) :: suf2) ++ [(h.length, nd.item)])
          (u := pre ++ [(a, x)]) (v := suf2 ++ [(h.length, nd.item)])
          (a := b) (x := y) hch1 ?_ (by simp) (by rw [hnext])
        simp
      simp only [extendLoop, hnd, happ, hrec]
      rfl

end ExtendLemmas

/-- The traversal loop of `LinkedList.__getitem__`: walk while the cursor is
live and the running index `k` differs from the target `i`; return the item
when `k = i`, and the IndexError marker (`some none`) when the cursor dies
first.  `i` is an `Int`: a negative target is never reached, matching the
Python loop. -/
def getLoop {α : Type} (h : Heap α) : Option Nat → Int → Nat → Nat → Option (Option α)
  | none, _, _, _ => some none
  | some a, i, k, 0 =>
    match h.get? a with
    | none => none
    | some nd => if (k : Int) = i then some (some nd.item) else none
  | some a, i, k, fuel + 1 =>
    match h.get? a with
    | none => none
    | some nd =>
      if (k : Int) = i then some (some nd.item)
      else getLoop h nd.next i (k + 1) fuel

/-- `LinkedList.__getitem__`: normalize a negative index by adding the cached
`_length`, then traverse from the head counting hops. -/
def LinkedList.getItem {α : Type} (h : Heap α) (L : LinkedList) (i : Int) (fuel : Nat) :
    Option (Option α) :=
  getLoop h L.first (if i < 0 then L.length + i else i) 0 fuel

section GetLemmas

variable {α : Type} [DecidableEq α]

theorem getLoop_spec {h : Heap α} {i : Int} :
    ∀ {ps : List (Nat × α)} {c : Option Nat} {k fuel : Nat},
      chainB h c ps = true → ps.length ≤ fuel →
      getLoop h c i k fuel =
        some (if (k : Int) ≤ i ∧ i < (k : Int) + ps.length then
          (ps.map Prod.snd).get? (i - k).toNat else none) := by
  intro ps
  induction ps with
  | nil =>
    intro c k fuel hch _
    rw [chainB_nil_iff] at hch
    subst hch
    rw [if_neg (by simp)]
    cases fuel <;> rfl
  | cons p rest ih =>
    intro c k fuel hch hfuel
    obtain ⟨a, z⟩ := p
    rw [chainB_cons_iff] at hch
    obtain ⟨hc, nd, hnd, hit, hrest⟩ := hch
    subst hc
    simp only [List.length_cons, List.map_cons]
    by_cases hki : (k : Int) = i
    · have hval : getLoop h (some a) i k fuel = some (some nd.item) := by
        cases fuel <;> simp only [getLoop, hnd, if_pos hki]
      rw [hval, if_pos (by push_cast; omega)]
      have hz : (i - (k : Int)).toNat = 0 := by omega
      rw [hz]
      simp [hit]
    · obtain ⟨fuel, rfl⟩ : ∃ m, fuel = m + 1 := by
        cases fuel
        · simp at hfuel
        · exact ⟨_, rfl⟩
      simp only [getLoop, hnd, if_neg hki]
      rw [ih hrest (by simp at hfuel ⊢; omega)]
      push_cast
      by_cases hcond : ((k : Int) + 1 ≤ i ∧ i < ((k : Int) + 1) + rest.length)
      · rw [if_pos hcond, if_pos (by omega)]
        have hsh : (i - (k : Int)).toNat = (i - ((k : Int) + 1)).toNat + 1 := by omega
        rw [hsh, List.get?_cons_succ]
      · rw [if_neg hcond, if_neg (by omega)]

end GetLemmas

/-- `LinkedList.__eq__`: walk both chains in lockstep from each head,
comparing items, until a difference is found or either cursor dies. -/
def eqLoop {α : Type} [DecidableEq α] (h : Heap α) :
    Option Nat → Option Nat → Nat → Option Bool
  | none, _, _ => some true
  | some _, none, _ => some true
  | some _, some _, 0 => none
  | some a, some b, fuel + 1 =>
    match h.get? a, h.get? b with
    | some nda, some ndb =>
      if nda.item = ndb.item then eqLoop h nda.next ndb.next fuel
      else some false
    | _, _ => none

/-- `LinkedList.__eq__` at the list level. -/
def LinkedList.eqList {α : Type} [DecidableEq α] (h : Heap α) (L M : LinkedList)
    (fuel : Nat) : Option Bool :=
  eqLoop h L.first M.first fuel

section EqLemmas

variable {α : Type} [DecidableEq α]

theorem eqLoop_spec {h : Heap α} :
    ∀ {ps qs : List (Nat × α)} {c1 c2 : Option Nat} {n : Nat},
      chainB h c1 ps = true → chainB h c2 qs = true →
      min ps.length qs.length ≤ n →
      ∃ b, eqLoop h c1 c2 n = some b ∧
        (b = true ↔ (∃ t, qs.map Prod.snd = ps.map Prod.snd ++ t) ∨
          (∃ t, ps.map Prod.snd = qs.map Prod.snd ++ t)) ∧
        (b = false ↔ ∃ k x y, (ps.map Prod.snd).get? k = some x ∧
          (qs.map Prod.snd).get? k = some y ∧ x ≠ y) := by
  intro ps
  induction ps with
  | nil =>
    intro qs c1 c2 fuel hp hq _
    rw [chainB_nil_iff] at hp
    subst hp
    refine ⟨true, by cases fuel <;> rfl, ?_, ?_⟩
    · simp
    · simp
  | cons p rest ih =>
    intro qs c1 c2 fuel hp hq hfuel
    obtain ⟨a, x⟩ := p
    rw [chainB_cons_iff] at hp
    obtain ⟨hc1, nda, hnda, hita, hresta⟩ := hp
    subst hc1
    cases qs with
    | nil =>
      rw [chainB_nil_iff] at hq
      subst hq
      refine ⟨true, by cases fuel <;> rfl, ?_, ?_⟩
      · simp
      · simp
    | cons q qrest =>
      obtain ⟨b, y⟩ := q
      rw [chainB_cons_iff] at hq
      obtain ⟨hc2, ndb, hndb, hitb, hrestb⟩ := hq
      subst hc2
      obtain ⟨fuel, rfl⟩ : ∃ m, fuel = m + 1 := by
        cases fuel
        · simp at hfuel
        · exact ⟨_, rfl⟩
      by_cases hxy : x = y
      · have hcnd : nda.item = ndb.item := by rw [hita, hitb, hxy]
        obtain ⟨b2, hb2, htrue, hfalse⟩ :=
          ih (n := fuel) hresta hrestb (by simp at hfuel ⊢; omega)
        refine ⟨b2, ?_, ?_, ?_⟩
        · simp only [eqLoop, hnda, hndb, if_pos hcnd]
          exact hb2
        · rw [htrue]
          subst hxy
          simp only [List.map_cons]
          constructor
          · rintro (⟨t, ht⟩ | ⟨t, ht⟩)
            · exact Or.inl ⟨t, by rw [ht]; rfl⟩
            · exact Or.inr ⟨t, by rw [ht]; rfl⟩
          · rintro (⟨t, ht⟩ | ⟨t, ht⟩)
            · rw [List.cons_append] at ht
              injection ht with _ ht
              exact Or.inl ⟨t, ht⟩
            · rw [List.cons_append] at ht
              injection ht with _ ht
              exact Or.inr ⟨t, ht⟩
        · rw [hfalse]
          simp only [List.map_cons]
          constructor
          · rintro ⟨k, u, v, hu, hv, huv⟩
            exact ⟨k + 1, u, v, by rw [List.get?_cons_succ]; exact hu,
              by rw [List.get?_cons_succ]; exact hv, huv⟩
          · rintro ⟨k, u, v, hu, hv, huv⟩
            cases k with
            | zero =>
              rw [List.get?_cons_zero] at hu hv
              injection hu with hu
              injection hv with hv
              subst hu
              subst hv
              exact absurd hxy huv
            | succ k =>
              rw [List.get?_cons_succ] at hu hv
              exact ⟨k, u, v, hu, hv, huv⟩
      · have hcnd : ¬(nda.item = ndb.item) := by rw [hita, hitb]; exact hxy
        refine ⟨false, ?_, ?_, ?_⟩
        · simp only [eqLoop, hnda, hndb, if_neg hcnd]
        · simp only [Bool.false_eq_true, false_iff]
          rintro (⟨t, ht⟩ | ⟨t, ht⟩) <;>
            (simp only [List.map_cons, List.cons_append] at ht;
             injection ht with h1 _)
          · exact hxy h1.symm
          · exact hxy h1
        · simp only [List.map_cons]
          constructor
          · intro
            exact ⟨0, x, y, rfl, rfl, hxy⟩
          · intro
            trivial

end EqLemmas

/-- The scan loop of `LinkedList.remove`: starting at the (already checked)
head, look at `curr.next`; on an item match splice `curr.next` out by
setting `curr.next = curr.next.next`, otherwise advance.  Exhausting the
scan is the ValueError (`Except.error ()`). -/
def removeLoop {α : Type} [DecidableEq α] (h : Heap α) (x : α) :
    Option Nat → Nat → Option (Except Unit (Heap α))
  | none, _ => some (Except.error ())
  | some _, 0 => none
  | some a, fuel + 1 =>
    match h.get? a with
    | none => none
    | some nd =>
      match nd.next with
      | none => removeLoop h x none fuel
      | some b =>
        match h.get? b with
        | none => none
        | some ndb =>
          if ndb.item = x then some (Except.ok (h.set a ⟨nd.item, ndb.next⟩))
          else removeLoop h x (some b) fuel

/-- `LinkedList.remove`: raise ValueError on an empty list, unlink the head
when it matches, otherwise run the scan loop.  On either error path the
code has not mutated anything, so the error carries the untouched state;
on success `_length` is decremented by one. -/
def LinkedList.remove {α : Type} [DecidableEq α] (h : Heap α) (L : LinkedList) (x : α)
    (fuel : Nat) : Option (Except (Heap α × LinkedList) (Heap α × LinkedList)) :=
  match L.first with
  | none => some (Except.error (h, L))
  | some a =>
    match h.get? a with
    | none => none
    | some nd =>
      if nd.item = x then some (Except.ok (h, ⟨nd.next, L.length - 1⟩))
      else
        match removeLoop h x (some a) fuel with
        | none => none
        | some (Except.error _) => some (Except.error (h, L))
        | some (Except.ok h2) => some (Except.ok (h2, ⟨L.first, L.length - 1⟩))

section RemoveLemmas

variable {α : Type} [DecidableEq α] {x : α}

theorem removeLoop_notFound {h : Heap α} :
    ∀ {rest : List (Nat × α)} {a : Nat} {z : α} {n : Nat},
      chainB h (some a) ((a, z) :: rest) = true →
      x ∉ rest.map Prod.snd → rest.length + 1 ≤ n →
      removeLoop h x (some a) n = some (Except.error ()) := by
  intro rest
  induction rest with
  | nil =>
    intro a z fuel hch _ hfuel
    rw [chainB_cons_iff] at hch
    obtain ⟨-, nd, hnd, -, hrest⟩ := hch
    rw [chainB_nil_iff] at hrest
    obtain ⟨fuel, rfl⟩ : ∃ m, fuel = m + 1 := by
      cases fuel
      · simp at hfuel
      · exact ⟨_, rfl⟩
    simp only [removeLoop, hnd, hrest]
  | cons q rest2 ih =>
    intro a z fuel hch hnotin hfuel
    obtain ⟨b, y⟩ := q
    rw [chainB_cons_iff] at hch
    obtain ⟨-, nd, hnd, -, hrest⟩ := hch
    have hnext : nd.next = some b := by
      rw [chainB_cons_iff] at hrest
      exact hrest.1
    rw [hnext] at hrest
    rw [chainB_cons_iff] at hrest
    obtain ⟨-, ndb, hndb, hitb, hrest2⟩ := hrest
    have hyx : ¬(ndb.item = x) := by
      rw [hitb]
      intro heq
      exact hnotin (by simp [heq])
    obtain ⟨fuel, rfl⟩ : ∃ m, fuel = m + 1 := by
      cases fuel
      · simp at hfuel
      · exact ⟨_, rfl⟩
    simp only [removeLoop, hnd, hnext, hndb, if_neg hyx]
    refine ih (z := y) ?_ ?_ ?_
    · rw [chainB_cons_iff]
      exact ⟨rfl, ndb, hndb, hitb, hrest2⟩
    · intro hmem
      exact hnotin (List.mem_cons_of_mem _ hmem)
    · simp at hfuel ⊢
      omega

theorem removeLoop_found {h : Heap α} :
    ∀ {r : List (Nat × α)} {a : Nat} {z : α} {b : Nat} {s : List (Nat × α)} {n : Nat},
      chainB h (some a) ((a, z) :: (r ++ (b, x) :: s)) = true →
      x ∉ r.map Prod.snd → r.length + 1 ≤ n →
      ∃ h2, removeLoop h x (some a) n = some (Except.ok h2) ∧
        chainB h2 (some a) ((a, z) :: (r ++ s)) = true ∧
        h2.length = h.length ∧
        (∀ e, e ∉ ((a, z) :: r).map Prod.fst → h2.get? e = h.get? e) := by
  intro r1
  induction r1 with
  | nil =>
    intro a z b r2 fuel hch _ hfuel
    have hnodup := chainB_nodup hch
    rw [chainB_cons_iff] at hch
    obtain ⟨-, nd, hnd, hitz, hrest⟩ := hch
    rw [List.nil_append] at hrest
    have hnext : nd.next = some b := by
      rw [chainB_cons_iff] at hrest
      exact hrest.1
    rw [hnext] at hrest
    rw [chainB_cons_iff] at hrest
    obtain ⟨-, ndb, hndb, hitb, hrest2⟩ := hrest
    obtain ⟨fuel, rfl⟩ : ∃ m, fuel = m + 1 := by
      cases fuel
      · simp at hfuel
      · exact ⟨_, rfl⟩
    have havalid : a < h.length := get?_some_lt hnd
    refine ⟨h.set a ⟨nd.item, ndb.next⟩, ?_, ?_, List.length_set h a _, ?_⟩
    · simp only [removeLoop, hnd, hnext, hndb, if_pos hitb]
    · rw [List.nil_append, chainB_cons_iff]
      refine ⟨rfl, ⟨nd.item, ndb.next⟩, ?_, hitz, ?_⟩
      · rw [List.get?_set_eq_of_lt _ havalid]
      · refine chainB_heap_set hrest2 ?_
        intro p hp heq
        simp only [List.map_cons, List.nodup_cons] at hnodup
        refine hnodup.1 ?_
        rw [← heq]
        exact List.mem_map.2 ⟨p, by simp [hp], rfl⟩
    · intro e he
      refine List.get?_set_ne _ _ (fun heq => ?_)
      rw [← heq] at he
      simp at he
  | cons q r1' ih =>
    intro a z b r2 fuel hch hnotin hfuel
    obtain ⟨c, w⟩ := q
    have hnodup := chainB_nodup hch
    rw [chainB_cons_iff] at hch
    obtain ⟨-, nd, hnd, hitz, hrest⟩ := hch
    rw [List.cons_append] at hrest
    have hnext : nd.next = some c := by
      rw [chainB_cons_iff] at hrest
      exact hrest.1
    rw [hnext] at hrest
    rw [chainB_cons_iff] at hrest
    obtain ⟨-, ndc, hndc, hitc, hrestc⟩ := hrest
    have hwx : ¬(ndc.item = x) := by
      rw [hitc]
      intro heq
      exact hnotin (by simp [heq])
    obtain ⟨fuel, rfl⟩ : ∃ m, fuel = m + 1 := by
      cases fuel
      · simp at hfuel
      · exact ⟨_, rfl⟩
    have hsub : chainB h (some c) ((c, w) :: (r1' ++ (b, x) :: r2)) = true := by
      rw [chainB_cons_iff]
      exact ⟨rfl, ndc, hndc, hitc, hrestc⟩
    obtain ⟨h2, hloop, hch2, hlen2, hframe2⟩ :=
      ih (z := w) (b := b) (s := r2) (n := fuel) hsub
        (fun hmem => hnotin (List.mem_cons_of_mem _ hmem))
        (by simp at hfuel ⊢; omega)
    have hanotin : (a : Nat) ∉ ((c, w) :: r1').map Prod.fst := by
      have h1 : a ∉ (((c, w) :: r1') ++ (b, x) :: r2).map Prod.fst := by
        simp only [List.map_cons, List.nodup_cons] at hnodup
        exact hnodup.1
      intro hmem
      refine h1 ?_
      rw [List.map_append, List.mem_append]
      exact Or.inl hmem
    refine ⟨h2, ?_, ?_, hlen2, ?_⟩
    · simp only [removeLoop, hnd, hnext, hndc, if_neg hwx]
      exact hloop
    · rw [List.cons_append, chainB_cons_iff]
      refine ⟨rfl, nd, ?_, hitz, ?_⟩
      · rw [hframe2 a hanotin]
        exact hnd
      · rw [hnext]
        exact hch2
    · intro e he
      refine hframe2 e ?_
      intro hmem
      refine he ?_
      simp only [List.map_cons] at hmem ⊢
      exact List.mem_cons_of_mem _ hmem

end RemoveLemmas

/-- The three-pointer loop of `LinkedList.invert`: redirect each node's
`next` to the previous node, remembering the old `next` as the next cursor;
returns the final heap and the last `previous` pointer (the new head). -/
def invertLoop {α : Type} : Heap α → Option Nat → Option Nat → Nat →
    Option (Heap α × Option Nat)
  | h, none, prev, _ => some (h, prev)
  | _, some _, _, 0 => none
  | h, some a, prev, fuel + 1 =>
    match h.get? a with
    | none => none
    | some nd => invertLoop (h.set a ⟨nd.item, prev⟩) nd.next (some a) fuel

/-- `LinkedList.invert`: run the reversal loop from the head with `previous`
initially none, then set `self._first` to the final `previous` pointer.
`_length` is untouched. -/
def LinkedList.invert {α : Type} (h : Heap α) (L : LinkedList) (fuel : Nat) :
    Option (Heap α × LinkedList) :=
  (invertLoop h L.first none fuel).map (fun r => (r.1, ⟨r.2, L.length⟩))

/-- `LinkedList.__init__(items)`: append each element of `items` in turn
onto the chain headed at `f` (initially none for a fresh list). -/
def fromListLoop {α : Type} : Heap α → Option Nat → List α → Option (Heap α × Option Nat)
  | h, f, [] => some (h, f)
  | h, f, x :: xs =>
    match appendH h f x with
    | none => none
    | some (h2, f2) => fromListLoop h2 (some f2) xs

/-- `LinkedList.sort`: materialize the items with `to_list`, sort them with
the (stable) built-in sort — ascending by default, reversed comparisons
when `rev` is set — then build a fresh `LinkedList` from the sorted items
and take over its head.  `self._length` is untouched. -/
def LinkedList.sort {α : Type} [LinearOrder α] (h : Heap α) (L : LinkedList)
    (rev : Bool) (fuel : Nat) : Option (Heap α × LinkedList) :=
  match toListFuel h L.first fuel with
  | none => none
  | some xs =>
    match rev with
    | true =>
      match fromListLoop h none (xs.mergeSort (fun a b => decide (b ≤ a))) with
      | none => none
      | some (h2, f2) => some (h2, ⟨f2, L.length⟩)
    | false =>
      match fromListLoop h none (xs.mergeSort (fun a b => decide (a ≤ b))) with
      | none => none
      | some (h2, f2) => some (h2, ⟨f2, L.length⟩)

section InvertSortLemmas

variable {α : Type} [DecidableEq α]

theorem invertLoop_spec :
    ∀ {ps qs : List (Nat × α)} {h : Heap α} {c prev : Option Nat} {n : Nat},
      chainB h c ps = true → chainB h prev qs = true →
      (∀ p ∈ ps, p.1 ∉ qs.map Prod.fst) → ps.length ≤ n →
      ∃ h2 r, invertLoop h c prev n = some (h2, r) ∧
        chainB h2 r (ps.reverse ++ qs) = true ∧ h2.length = h.length := by
  intro ps
  induction ps with
  | nil =>
    intro qs h c prev fuel hp hq _ _
    rw [chainB_nil_iff] at hp
    subst hp
    refine ⟨h, prev, ?_, by simpa using hq, rfl⟩
    cases fuel <;> rfl
  | cons p rest ih =>
    intro qs h c prev fuel hp hq hdis hfuel
    obtain ⟨a, z⟩ := p
    have hnodup := chainB_nodup hp
    rw [chainB_cons_iff] at hp
    obtain ⟨hc, nd, hnd, hit, hrest⟩ := hp
    subst hc
    obtain ⟨fuel, rfl⟩ : ∃ m, fuel = m + 1 := by
      cases fuel
      · simp at hfuel
      · exact ⟨_, rfl⟩
    have havalid : a < h.length := get?_some_lt hnd
    have hanotinrest : (a : Nat) ∉ rest.map Prod.fst := by
      simp only [List.map_cons, List.nodup_cons] at hnodup
      exact hnodup.1
    have hrest1 : chainB (h.set a ⟨nd.item, prev⟩) nd.next rest = true := by
      refine chainB_heap_set hrest ?_
      intro p hp heq
      exact hanotinrest (heq ▸ List.mem_map.2 ⟨p, hp, rfl⟩)
    have hq1 : chainB (h.set a ⟨nd.item, prev⟩) (some a) ((a, z) :: qs) = true := by
      rw [chainB_cons_iff]
      refine ⟨rfl, ⟨nd.item, prev⟩, ?_, hit, ?_⟩
      · rw [List.get?_set_eq_of_lt _ havalid]
      · refine chainB_heap_set hq ?_
        intro p hp heq
        exact hdis (a, z) (by simp) (heq ▸ List.mem_map.2 ⟨p, hp, rfl⟩)
    have hdis1 : ∀ p ∈ rest, p.1 ∉ ((a, z) :: qs).map Prod.fst := by
      intro p hp
      simp only [List.map_cons, List.mem_cons]
      rintro (heq | hmem)
      · exact hanotinrest (heq ▸ List.mem_map.2 ⟨p, hp, rfl⟩)
      · exact hdis p (List.mem_cons_of_mem _ hp) hmem
    obtain ⟨h2, r, hloop, hch2, hlen2⟩ :=
      ih (n := fuel) hrest1 hq1 hdis1 (by simp at hfuel ⊢; omega)
    refine ⟨h2, r, ?_, ?_, by rw [hlen2, List.length_set]⟩
    · simp only [invertLoop, hnd]
      exact hloop
    · rw [List.reverse_cons, List.append_assoc, List.singleton_append]
      exact hch2

theorem fromListLoop_spec :
    ∀ {l : List α} {h : Heap α} {f : Option Nat} {ps : List (Nat × α)},
      chainB h f ps = true →
      ∃ h2 f2 rs, fromListLoop h f l = some (h2, f2) ∧
        chainB h2 f2 (ps ++ rs) = true ∧ rs.map Prod.snd = l := by
  intro xs
  induction xs with
  | nil =>
    intro h f ps hf
    exact ⟨h, f, [], rfl, by simpa using hf, rfl⟩
  | cons x xs2 ih =>
    intro h f ps hf
    obtain ⟨h1, f1, happ, hch1, -, -⟩ := appendH_spec x hf
    obtain ⟨h2, f2, rs2, hloop, hch2, hitems⟩ := ih hch1
    refine ⟨h2, f2, (h.length, x) :: rs2, ?_, ?_, by simp [hitems]⟩
    · simp only [fromListLoop, happ]
      exact hloop
    · rw [List.append_cons]
      exact hch2

end InvertSortLemmas

/-- Claim C9: the list returned by `copy` (the spec's `duplicate`) reports a
cached length of `0` while its head is the very same node as the
original's head, so the duplicate of a non-empty list answers length `0`
even though its chain holds all of the original's nodes. -/
theorem copy_shares_head_with_zero_length {α : Type} [DecidableEq α]
    (h : Heap α) (L : LinkedList) (ps : List (Nat × α))
    (hch : chainB h L.first ps = true) (hne : ps ≠ []) :
    (LinkedList.copy L).length = 0 ∧ (LinkedList.copy L).first = L.first ∧
      chainB h (LinkedList.copy L).first ps = true ∧ ps.length ≠ 0 :=
  ⟨rfl, rfl, hch, fun h0 => hne (List.length_eq_zero.1 h0)⟩

theorem copy_shares_head_with_zero_length_witness :
    (LinkedList.copy ⟨some 0, 1⟩).length = 0 ∧
      (LinkedList.copy ⟨some 0, 1⟩).first = (⟨some 0, 1⟩ : LinkedList).first ∧
      chainB ([⟨1, none⟩] : Heap Int) (LinkedList.copy ⟨some 0, 1⟩).first
        [(0, (1 : Int))] = true ∧
      ([((0 : Nat), (1 : Int))]).length ≠ 0 :=
  copy_shares_head_with_zero_length ([⟨1, none⟩] : Heap Int) ⟨some 0, 1⟩
    [(0, (1 : Int))] (by decide) (by decide)

/-- Claim C1 (evaluation at the failing inputs): on the one-node list `[1]`,
`copy` returns a list whose cached length is `0` although one node is
reachable from its head; and after `extend` with the disjoint list `[2]`,
self's cached length is still `1` although two nodes are reachable.  This
contradicts the claimed invariant that the cached counter always equals
the number of reachable nodes. -/
theorem cached_length_invariant_fails :
    ((LinkedList.copy ⟨some 0, 1⟩).length = 0 ∧
      toListFuel ([⟨1, none⟩] : Heap Int) (LinkedList.copy ⟨some 0, 1⟩).first 2 =
        some [1]) ∧
    (LinkedList.extend ([⟨1, none⟩, ⟨2, none⟩] : Heap Int) ⟨some 0, 1⟩ ⟨some 1, 1⟩ 3 =
      some ([⟨1, some 2⟩, ⟨2, none⟩, ⟨2, none⟩], ⟨some 0, 1⟩) ∧
      toListFuel ([⟨1, some 2⟩, ⟨2, none⟩, ⟨2, none⟩] : Heap Int) (some 0) 9 =
        some [1, 2]) := by
  decide

/-- Claim C2 (evaluation at the failing input): with the disjoint one-node
lists `L = [1]` and `M = [2]`, evaluating `L + M` (`__add__`) splices new
nodes onto `L`'s own chain: before the call `L` materializes to `[1]`,
after it `L` materializes to `[1, 2]`, so `L` is not left unmodified. -/
theorem add_mutates_left_operand :
    LinkedList.add ([⟨1, none⟩, ⟨2, none⟩] : Heap Int) ⟨some 0, 1⟩ ⟨some 1, 1⟩ 3 =
      some ([⟨1, some 2⟩, ⟨2, none⟩, ⟨2, none⟩], ⟨some 0, 1⟩) ∧
    toListFuel ([⟨1, none⟩, ⟨2, none⟩] : Heap Int) (some 0) 9 = some [1] ∧
    toListFuel ([⟨1, some 2⟩, ⟨2, none⟩, ⟨2, none⟩] : Heap Int) (some 0) 9 =
      some [1, 2] := by
  decide

/-- Claim C3: for lists with disjoint node chains, `extend` leaves self's
sequence equal to its old sequence followed by other's sequence, and
other's chain and sequence are unchanged by the call. -/
theorem extend_concats_without_mutating_other {α : Type} [DecidableEq α]
    (h : Heap α) (L M : LinkedList) (ps qs : List (Nat × α)) (fuel : Nat)
    (hL : chainB h L.first ps = true) (hM : chainB h M.first qs = true)
    (hdis : ∀ p ∈ qs, p.1 ∉ ps.map Prod.fst)
    (hfuel : ps.length + qs.length ≤ fuel) :
    ∃ h2 L2, LinkedList.extend h L M fuel = some (h2, L2) ∧
      L2.length = L.length ∧
      toListFuel h2 L2.first fuel = some (ps.map Prod.snd ++ qs.map Prod.snd) ∧
      chainB h2 M.first qs = true ∧
      toListFuel h2 M.first fuel = some (qs.map Prod.snd) := by
  obtain ⟨h2, f2, rs, hloop, hch2, hitems, hframe⟩ :=
    extendLoop_spec (n := fuel) hL hM hdis (by omega)
  have hrslen : rs.length = qs.length := by
    have := congrArg List.length hitems
    simpa using this
  have hM2 : chainB h2 M.first qs = true := hframe _ _ hM hdis
  refine ⟨h2, ⟨f2, L.length⟩, ?_, rfl, ?_, hM2, ?_⟩
  · unfold LinkedList.extend
    rw [hloop]
    rfl
  · have := toListFuel_spec (n := fuel) hch2 (by simp; omega)
    rw [this, List.map_append, hitems]
  · exact toListFuel_spec hM2 (by omega)

theorem extend_concats_without_mutating_other_witness :
    ∃ h2 L2,
      LinkedList.extend ([⟨1, none⟩, ⟨2, none⟩] : Heap Int) ⟨some 0, 1⟩ ⟨some 1, 1⟩ 2 =
        some (h2, L2) ∧
      L2.length = 1 ∧
      toListFuel h2 L2.first 2 = some [1, 2] ∧
      chainB h2 (some 1) [(1, (2 : Int))] = true ∧
      toListFuel h2 (some 1) 2 = some [2] :=
  extend_concats_without_mutating_other ([⟨1, none⟩, ⟨2, none⟩] : Heap Int)
    ⟨some 0, 1⟩ ⟨some 1, 1⟩ [(0, 1)] [(1, 2)] 2 (by decide) (by decide) (by decide)
    (by decide)

/-- Claim C10 (counterexample to the claim as stated): `L.extend(L)` and
`L + L` DO terminate on the non-empty singleton list `[5]`: the iterator
reads the head's old `next` (still the terminal marker) before the first
append extends the chain, so the loop stops after one step. -/
theorem extend_self_singleton_terminates :
    LinkedList.extend ([⟨5, none⟩] : Heap Int) ⟨some 0, 1⟩ ⟨some 0, 1⟩ 3 =
      some ([⟨5, some 1⟩, ⟨5, none⟩], ⟨some 0, 1⟩) ∧
    LinkedList.add ([⟨5, none⟩] : Heap Int) ⟨some 0, 1⟩ ⟨some 0, 1⟩ 3 =
      some ([⟨5, some 1⟩, ⟨5, none⟩], ⟨some 0, 1⟩) := by
  decide

/-- Claim C10 (amended): for every list of length at least TWO, `extend(L, L)`
and `L + L` do not terminate: each loop step appends a node to the same
chain the iterator is traversing, and the cursor (which reads the
pre-append `next` link) never reaches the growing end.  In the fuel
embedding: the loop returns `none` for every fuel. -/
theorem extend_self_diverges_of_two_le {α : Type} [DecidableEq α]
    (h : Heap α) (L : LinkedList) (ps : List (Nat × α))
    (hch : chainB h L.first ps = true) (hlen : 2 ≤ ps.length) :
    ∀ fuel, LinkedList.extend h L L fuel = none ∧ LinkedList.add h L L fuel = none := by
  intro fuel
  have hloop : extendLoop h L.first L.first fuel = none := by
    cases ps with
    | nil => simp at hlen
    | cons p1 tail =>
      cases tail with
      | nil => simp at hlen
      | cons p2 rest =>
        obtain ⟨a, x⟩ := p1
        have hfirst : L.first = some a := by
          rw [chainB_cons_iff] at hch
          exact hch.1
        exact extendLoop_diverges (u := []) (v := p2 :: rest) hch rfl
          (by simp) hfirst
  constructor
  · unfold LinkedList.extend
    rw [hloop]
    rfl
  · unfold LinkedList.add
    rw [hloop]
    rfl

theorem extend_self_diverges_of_two_le_witness :
    LinkedList.extend ([⟨1, some 1⟩, ⟨2, none⟩] : Heap Int) ⟨some 0, 2⟩ ⟨some 0, 2⟩ 7 =
      none ∧
    LinkedList.add ([⟨1, some 1⟩, ⟨2, none⟩] : Heap Int) ⟨some 0, 2⟩ ⟨some 0, 2⟩ 7 =
      none :=
  extend_self_diverges_of_two_le ([⟨1, some 1⟩, ⟨2, none⟩] : Heap Int) ⟨some 0, 2⟩
    [(0, 1), (1, 2)] (by decide) (by decide) 7

/-- Claim C4: `__eq__` walks both chains in lockstep comparing items and
stops when either chain ends: it returns true exactly when one sequence
is a prefix of the other (in particular for different lengths), and false
exactly when the sequences differ at some position reached by both. -/
theorem eqList_prefix_spec {α : Type} [DecidableEq α]
    (h : Heap α) (L M : LinkedList) (ps qs : List (Nat × α)) (fuel : Nat)
    (hL : chainB h L.first ps = true) (hM : chainB h M.first qs = true)
    (hfuel : min ps.length qs.length ≤ fuel) :
    ∃ b, LinkedList.eqList h L M fuel = some b ∧
      (b = true ↔ (∃ t, qs.map Prod.snd = ps.map Prod.snd ++ t) ∨
        (∃ t, ps.map Prod.snd = qs.map Prod.snd ++ t)) ∧
      (b = false ↔ ∃ k x y, (ps.map Prod.snd).get? k = some x ∧
        (qs.map Prod.snd).get? k = some y ∧ x ≠ y) :=
  eqLoop_spec hL hM hfuel

theorem eqList_prefix_spec_witness :
    ∃ b,
      LinkedList.eqList
        ([⟨1, some 1⟩, ⟨2, none⟩, ⟨1, some 3⟩, ⟨2, some 4⟩, ⟨3, none⟩] : Heap Int)
        ⟨some 0, 2⟩ ⟨some 2, 3⟩ 2 = some b ∧
      (b = true ↔ (∃ t, [(1 : Int), 2, 3] = [(1 : Int), 2] ++ t) ∨
        (∃ t, [(1 : Int), 2] = [(1 : Int), 2, 3] ++ t)) ∧
      (b = false ↔ ∃ k x y, ([(1 : Int), 2]).get? k = some x ∧
        ([(1 : Int), 2, 3]).get? k = some y ∧ x ≠ y) :=
  eqList_prefix_spec
    ([⟨1, some 1⟩, ⟨2, none⟩, ⟨1, some 3⟩, ⟨2, some 4⟩, ⟨3, none⟩] : Heap Int)
    ⟨some 0, 2⟩ ⟨some 2, 3⟩ [(0, 1), (1, 2)] [(2, 1), (3, 2), (4, 3)] 2
    (by decide) (by decide) (by decide)

/-- Claim C8: `invert` reverses the element sequence in place with the
cached length unchanged and no node allocated (the heap size is
unchanged), and inverting twice restores the original chain exactly. -/
theorem invert_involution_spec {α : Type} [DecidableEq α]
    (h : Heap α) (L : LinkedList) (ps : List (Nat × α)) (fuel : Nat)
    (hch : chainB h L.first ps = true) (hfuel : ps.length ≤ fuel) :
    ∃ h2 L2, LinkedList.invert h L fuel = some (h2, L2) ∧
      chainB h2 L2.first ps.reverse = true ∧
      L2.length = L.length ∧ h2.length = h.length ∧
      toListFuel h2 L2.first fuel = some (ps.map Prod.snd).reverse ∧
      ∃ h3 L3, LinkedList.invert h2 L2 fuel = some (h3, L3) ∧
        chainB h3 L3.first ps = true ∧ L3.length = L.length ∧
        h3.length = h.length ∧
        toListFuel h3 L3.first fuel = some (ps.map Prod.snd) := by
  have hnilq : chainB h (none : Option Nat) ([] : List (Nat × α)) = true := by
    rw [chainB_none_iff]
  obtain ⟨h2, r, hloop, hch2, hlen2⟩ :=
    invertLoop_spec (n := fuel) hch hnilq (by simp) hfuel
  rw [List.append_nil] at hch2
  have hL2 : LinkedList.invert h L fuel = some (h2, ⟨r, L.length⟩) := by
    unfold LinkedList.invert
    rw [hloop]
    rfl
  have hnilq2 : chainB h2 (none : Option Nat) ([] : List (Nat × α)) = true := by
    rw [chainB_none_iff]
  obtain ⟨h3, r3, hloop3, hch3, hlen3⟩ :=
    invertLoop_spec (n := fuel) hch2 hnilq2 (by simp) (by simpa using hfuel)
  rw [List.append_nil, List.reverse_reverse] at hch3
  refine ⟨h2, ⟨r, L.length⟩, hL2, hch2, rfl, hlen2, ?_, h3, ⟨r3, L.length⟩, ?_, hch3,
    rfl, by rw [hlen3, hlen2], ?_⟩
  · rw [toListFuel_spec hch2 (by simpa using hfuel), List.map_reverse]
  · unfold LinkedList.invert
    rw [hloop3]
    rfl
  · exact toListFuel_spec hch3 hfuel

theorem invert_involution_spec_witness :
    ∃ h2 L2,
      LinkedList.invert ([⟨1, some 1⟩, ⟨2, some 2⟩, ⟨3, none⟩] : Heap Int)
        ⟨some 0, 3⟩ 3 = some (h2, L2) ∧
      chainB h2 L2.first [(2, (3 : Int)), (1, 2), (0, 1)] = true ∧
      L2.length = 3 ∧ h2.length = 3 ∧
      toListFuel h2 L2.first 3 = some [3, 2, 1] ∧
      ∃ h3 L3, LinkedList.invert h2 L2 3 = some (h3, L3) ∧
        chainB h3 L3.first [(0, (1 : Int)), (1, 2), (2, 3)] = true ∧
        L3.length = 3 ∧ h3.length = 3 ∧
        toListFuel h3 L3.first 3 = some [1, 2, 3] :=
  invert_involution_spec ([⟨1, some 1⟩, ⟨2, some 2⟩, ⟨3, none⟩] : Heap Int)
    ⟨some 0, 3⟩ [(0, 1), (1, 2), (2, 3)] 3 (by decide) (by decide)

/-- Claim C5: `__getitem__` first normalizes a negative index `i` to
`length + i`, returns the element at the normalized position when it is in
`[0, length)`, and signals IndexError (`some none`) exactly when `i ≥ n`
or `i < -n`. -/
theorem getItem_negative_indexing_spec {α : Type} [DecidableEq α]
    (h : Heap α) (L : LinkedList) (ps : List (Nat × α)) (i : Int) (fuel : Nat)
    (hch : chainB h L.first ps = true)
    (hlen : L.length = (ps.length : Int))
    (hfuel : ps.length ≤ fuel) :
    (LinkedList.getItem h L i fuel =
      some (if 0 ≤ (if i < 0 then (ps.length : Int) + i else i) ∧
          (if i < 0 then (ps.length : Int) + i else i) < (ps.length : Int) then
        (ps.map Prod.snd).get? (if i < 0 then (ps.length : Int) + i else i).toNat
      else none)) ∧
    (LinkedList.getItem h L i fuel = some none ↔
      (ps.length : Int) ≤ i ∨ i < -(ps.length : Int)) := by
  have base := getLoop_spec (i := if i < 0 then (ps.length : Int) + i else i)
    (k := 0) hch hfuel
  simp only [Nat.cast_zero, zero_add, sub_zero] at base
  have hun : LinkedList.getItem h L i fuel =
      getLoop h L.first (if i < 0 then (ps.length : Int) + i else i) 0 fuel := by
    unfold LinkedList.getItem
    rw [hlen]
  constructor
  · rw [hun, base]
  · rw [hun, base]
    by_cases hcond : (0 ≤ (if i < 0 then (ps.length : Int) + i else i) ∧
        (if i < 0 then (ps.length : Int) + i else i) < (ps.length : Int))
    · rw [if_pos hcond]
      have hlt : (if i < 0 then (ps.length : Int) + i else i).toNat <
          (ps.map Prod.snd).length := by
        rw [List.length_map]
        rcases hcond with ⟨h0, h1⟩
        omega
      rw [List.get?_eq_get hlt]
      simp only [Option.some.injEq, reduceCtorEq, false_iff]
      by_cases hi : i < 0
      · rw [if_pos hi] at hcond
        omega
      · rw [if_neg hi] at hcond
        omega
    · rw [if_neg hcond]
      simp only [true_iff]
      rw [not_and_or] at hcond
      by_cases hi : i < 0
      · rw [if_pos hi] at hcond
        omega
      · rw [if_neg hi] at hcond
        omega

theorem getItem_negative_indexing_spec_witness :
    (LinkedList.getItem ([⟨1, some 1⟩, ⟨2, some 2⟩, ⟨3, none⟩] : Heap Int)
        ⟨some 0, 3⟩ (-1) 3 = some (some 3) ∧
      LinkedList.getItem ([⟨1, some 1⟩, ⟨2, some 2⟩, ⟨3, none⟩] : Heap Int)
        ⟨some 0, 3⟩ (-3) 3 = some (some 1) ∧
      LinkedList.getItem ([⟨1, some 1⟩, ⟨2, some 2⟩, ⟨3, none⟩] : Heap Int)
        ⟨some 0, 3⟩ (-4) 3 = some none) ∧
    (LinkedList.getItem ([⟨1, some 1⟩, ⟨2, some 2⟩, ⟨3, none⟩] : Heap Int)
        ⟨some 0, 3⟩ (-4) 3 = some none ↔
      ((3 : Int) ≤ -4 ∨ (-4 : Int) < -3)) := by
  have h1 := getItem_negative_indexing_spec
    ([⟨1, some 1⟩, ⟨2, some 2⟩, ⟨3, none⟩] : Heap Int) ⟨some 0, 3⟩
    [(0, 1), (1, 2), (2, 3)] (-1) 3 (by decide) (by decide) (by decide)
  have h2 := getItem_negative_indexing_spec
    ([⟨1, some 1⟩, ⟨2, some 2⟩, ⟨3, none⟩] : Heap Int) ⟨some 0, 3⟩
    [(0, 1), (1, 2), (2, 3)] (-3) 3 (by decide) (by decide) (by decide)
  have h4 := getItem_negative_indexing_spec
    ([⟨1, some 1⟩, ⟨2, some 2⟩, ⟨3, none⟩] : Heap Int) ⟨some 0, 3⟩
    [(0, 1), (1, 2), (2, 3)] (-4) 3 (by decide) (by decide) (by decide)
  exact ⟨⟨h1.1.trans (by decide), h2.1.trans (by decide), h4.1.trans (by decide)⟩, h4.2⟩

/-- Claim C6: `remove` (the spec's `removeFirst`) raises ValueError exactly
when no node's item equals the target (including on the empty list), and
then the list is left completely unchanged (the error carries the
untouched state); when some node matches, the first matching node is
spliced out and the cached length decreases by exactly one. -/
theorem remove_first_occurrence_spec {α : Type} [DecidableEq α]
    (h : Heap α) (L : LinkedList) (x : α) (ps : List (Nat × α)) (fuel : Nat)
    (hch : chainB h L.first ps = true) (hfuel : ps.length ≤ fuel) :
    (x ∉ ps.map Prod.snd →
      LinkedList.remove h L x fuel = some (Except.error (h, L))) ∧
    (x ∈ ps.map Prod.snd →
      ∃ h2 L2, LinkedList.remove h L x fuel = some (Except.ok (h2, L2)) ∧
        L2.length = L.length - 1 ∧ h2.length = h.length ∧
        chainB h2 L2.first (ps.eraseP (fun p => decide (p.2 = x))) = true) := by
  cases ps with
  | nil =>
    rw [chainB_nil_iff] at hch
    constructor
    · intro _
      simp only [LinkedList.remove, hch]
    · intro hmem
      simp at hmem
  | cons p rest =>
    obtain ⟨a, z⟩ := p
    have hch0 := hch
    rw [chainB_cons_iff] at hch
    obtain ⟨hfirst, nd, hnd, hit, hrest⟩ := hch
    by_cases hzx : z = x
    · have hndx : nd.item = x := by rw [hit, hzx]
      constructor
      · intro hnot
        exact absurd (by simp [hzx]) hnot
      · intro _
        refine ⟨h, ⟨nd.next, L.length - 1⟩, ?_, rfl, rfl, ?_⟩
        · simp only [LinkedList.remove, hfirst, hnd, if_pos hndx]
        · rw [List.eraseP_cons_of_pos (by simp [hzx])]
          exact hrest
    · have hndx : ¬(nd.item = x) := by rw [hit]; exact hzx
      have hchain : chainB h (some a) ((a, z) :: rest) = true := by
        rw [← hfirst]
        exact hch0
      constructor
      · intro hnot
        have hnotrest : x ∉ rest.map Prod.snd := fun hm => hnot (by simp [hm])
        have hloop := removeLoop_notFound (x := x) (n := fuel) hchain hnotrest
          (by simp at hfuel ⊢; omega)
        simp only [LinkedList.remove, hfirst, hnd, if_neg hndx, hloop]
      · intro hmem
        have hmemrest : x ∈ rest.map Prod.snd := by
          simp only [List.map_cons, List.mem_cons] at hmem
          rcases hmem with heq | hmem2
          · exact absurd heq.symm hzx
          · exact hmem2
        obtain ⟨p0, hp0, hp0x⟩ := List.mem_map.1 hmemrest
        obtain ⟨p1, l1, l2, hl1, hp1, hsplit, herase⟩ :=
          List.exists_of_eraseP (p := fun p => decide (p.2 = x)) hp0 (by simp [hp0x])
        have hp1x : p1.2 = x := by simpa using hp1
        have hp1eta : p1 = (p1.1, x) := by rw [← hp1x]
        rw [hsplit, hp1eta] at hchain
        have hnotinl1 : x ∉ l1.map Prod.snd := by
          intro hm
          obtain ⟨q0, hq0, hq0x⟩ := List.mem_map.1 hm
          have := hl1 q0 hq0
          simp [hq0x] at this
        have hlensplit : rest.length = l1.length + 1 + l2.length := by
          have := congrArg List.length hsplit
          simp at this
          omega
        obtain ⟨h2, hloop, hch2, hlen2, hframe⟩ :=
          removeLoop_found (x := x) (n := fuel) hchain hnotinl1
            (by simp at hfuel; omega)
        refine ⟨h2, ⟨L.first, L.length - 1⟩, ?_, rfl, hlen2, ?_⟩
        · simp only [LinkedList.remove, hfirst, hnd, if_neg hndx, hloop]
        · rw [List.eraseP_cons_of_neg (by simp [hzx]), herase, hfirst]
          exact hch2

theorem remove_first_occurrence_spec_witness :
    ((9 : Int) ∉ ([(0, 1), (1, 2), (2, 3)] : List (Nat × Int)).map Prod.snd →
      LinkedList.remove ([⟨1, some 1⟩, ⟨2, some 2⟩, ⟨3, none⟩] : Heap Int)
        ⟨some 0, 3⟩ 9 3 =
        some (Except.error ([⟨1, some 1⟩, ⟨2, some 2⟩, ⟨3, none⟩], ⟨some 0, 3⟩))) ∧
    ((9 : Int) ∈ ([(0, 1), (1, 2), (2, 3)] : List (Nat × Int)).map Prod.snd →
      ∃ h2 L2,
        LinkedList.remove ([⟨1, some 1⟩, ⟨2, some 2⟩, ⟨3, none⟩] : Heap Int)
          ⟨some 0, 3⟩ 9 3 = some (Except.ok (h2, L2)) ∧
        L2.length = (⟨some 0, 3⟩ : LinkedList).length - 1 ∧ h2.length = 3 ∧
        chainB h2 L2.first
          (([(0, 1), (1, 2), (2, 3)] : List (Nat × Int)).eraseP
            (fun p => decide (p.2 = 9))) = true) :=
  remove_first_occurrence_spec ([⟨1, some 1⟩, ⟨2, some 2⟩, ⟨3, none⟩] : Heap Int)
    ⟨some 0, 3⟩ 9 [(0, 1), (1, 2), (2, 3)] 3 (by decide) (by decide)

/-- Claim C7: `sort` materializes the elements, applies the stable built-in
sort (ascending by default, with reversed comparisons when the flag is
set), rebuilds the chain, and replaces self's head: afterwards
materializing yields exactly the stable merge sort of the old elements —
sorted ascending (resp. descending) and a permutation of the old
sequence — with the cached length unchanged. -/
theorem sort_orders_elements {α : Type} [DecidableEq α] [LinearOrder α]
    (h : Heap α) (L : LinkedList) (ps : List (Nat × α)) (fuel : Nat)
    (hch : chainB h L.first ps = true) (hfuel : ps.length ≤ fuel) :
    (∃ h2 L2 ys, LinkedList.sort h L false fuel = some (h2, L2) ∧
      L2.length = L.length ∧
      toListFuel h2 L2.first fuel = some ys ∧
      ys = (ps.map Prod.snd).mergeSort (fun a b => decide (a ≤ b)) ∧
      ys.Sorted (· ≤ ·) ∧ List.Perm ys (ps.map Prod.snd)) ∧
    (∃ h2 L2 ys, LinkedList.sort h L true fuel = some (h2, L2) ∧
      L2.length = L.length ∧
      toListFuel h2 L2.first fuel = some ys ∧
      ys = (ps.map Prod.snd).mergeSort (fun a b => decide (b ≤ a)) ∧
      ys.Sorted (· ≥ ·) ∧ List.Perm ys (ps.map Prod.snd)) := by
  have htl : toListFuel h L.first fuel = some (ps.map Prod.snd) :=
    toListFuel_spec hch hfuel
  have hnil : chainB h (none : Option Nat) ([] : List (Nat × α)) = true := by
    rw [chainB_none_iff]
  constructor
  · set le : α → α → Bool := fun a b => decide (a ≤ b) with hle
    obtain ⟨h2, f2, rs, hloop, hch2, hitems⟩ :=
      fromListLoop_spec (l := (ps.map Prod.snd).mergeSort le) hnil
    rw [List.nil_append] at hch2
    have hperm : List.Perm ((ps.map Prod.snd).mergeSort le) (ps.map Prod.snd) :=
      List.mergeSort_perm _ _
    have hrslen : rs.length ≤ fuel := by
      have h1 := congrArg List.length hitems
      have h2l := hperm.length_eq
      simp only [List.length_map] at h1 h2l ⊢
      omega
    refine ⟨h2, ⟨f2, L.length⟩, (ps.map Prod.snd).mergeSort le, ?_, rfl, ?_, rfl, ?_, hperm⟩
    · simp only [LinkedList.sort, htl, hloop]
    · rw [toListFuel_spec hch2 hrslen, hitems]
    · have hpair : ((ps.map Prod.snd).mergeSort le).Pairwise (fun a b => le a b = true) :=
        List.sorted_mergeSort
          (fun a b c h1 h2 => by
            simp only [hle, decide_eq_true_eq] at h1 h2 ⊢
            exact le_trans h1 h2)
          (fun a b => by
            simp only [hle, Bool.or_eq_true, decide_eq_true_eq]
            exact le_total a b)
          (ps.map Prod.snd)
      exact hpair.imp (fun hb => by simpa [hle] using hb)
  · set le : α → α → Bool := fun a b => decide (b ≤ a) with hle
    obtain ⟨h2, f2, rs, hloop, hch2, hitems⟩ :=
      fromListLoop_spec (l := (ps.map Prod.snd).mergeSort le) hnil
    rw [List.nil_append] at hch2
    have hperm : List.Perm ((ps.map Prod.snd).mergeSort le) (ps.map Prod.snd) :=
      List.mergeSort_perm _ _
    have hrslen : rs.length ≤ fuel := by
      have h1 := congrArg List.length hitems
      have h2l := hperm.length_eq
      simp only [List.length_map] at h1 h2l ⊢
      omega
    refine ⟨h2, ⟨f2, L.length⟩, (ps.map Prod.snd).mergeSort le, ?_, rfl, ?_, rfl, ?_, hperm⟩
    · simp only [LinkedList.sort, htl, hloop]
    · rw [toListFuel_spec hch2 hrslen, hitems]
    · have hpair : ((ps.map Prod.snd).mergeSort le).Pairwise (fun a b => le a b = true) :=
        List.sorted_mergeSort
          (fun a b c h1 h2 => by
            simp only [hle, decide_eq_true_eq] at h1 h2 ⊢
            exact le_trans h2 h1)
          (fun a b => by
            simp only [hle, Bool.or_eq_true, decide_eq_true_eq]
            exact le_total b a)
          (ps.map Prod.snd)
      exact hpair.imp (fun hb => by simpa [hle, ge_iff_le] using hb)

theorem sort_orders_elements_witness :
    (∃ h2 L2 ys,
      LinkedList.sort ([⟨3, some 1⟩, ⟨1, some 2⟩, ⟨2, none⟩] : Heap Int)
        ⟨some 0, 3⟩ false 3 = some (h2, L2) ∧
      L2.length = 3 ∧
      toListFuel h2 L2.first 3 = some ys ∧
      ys = ([(3 : Int), 1, 2]).mergeSort (fun a b => decide (a ≤ b)) ∧
      ys.Sorted (· ≤ ·) ∧ List.Perm ys [(3 : Int), 1, 2]) ∧
    (∃ h2 L2 ys,
      LinkedList.sort ([⟨3, some 1⟩, ⟨1, some 2⟩, ⟨2, none⟩] : Heap Int)
        ⟨some 0, 3⟩ true 3 = some (h2, L2) ∧
      L2.length = 3 ∧
      toListFuel h2 L2.first 3 = some ys ∧
      ys = ([(3 : Int), 1, 2]).mergeSort (fun a b => decide (b ≤ a)) ∧
      ys.Sorted (· ≥ ·) ∧ List.Perm ys [(3 : Int), 1, 2]) :=
  sort_orders_elements ([⟨3, some 1⟩, ⟨1, some 2⟩, ⟨2, none⟩] : Heap Int)
    ⟨some 0, 3⟩ [(0, 3), (1, 1), (2, 2)] 3 (by decide) (by decide)
